import Mathlib

/-!
Verification development for the job-finder-agent repository.

The repository is a Next.js front end plus a FastAPI backend for matching a
candidate profile against scraped job postings.  The front-end sources embed
the presentation-layer filtering (`applyFilters`), the skill-string helpers
(`formatSkills`, `handleSkillsChange`) and the README's weighted scoring
combinator (`calculate_match_score`).  The backend scorers themselves are not
part of the available sources; where a property concerns them, the definitions
below are modelled from the specification document and say so in their doc
comments.

JavaScript strings are modelled as lists of characters, numbers as rationals,
and nullable fields as `Option`.
-/

namespace JobFinder

/-- JavaScript strings, modelled as lists of characters. -/
abbrev Str := List Char

/-- JS `toLowerCase()` on a string. -/
def lowerStr (s : Str) : Str := s.map Char.toLower

/-- Whitespace test used by JS `trim()`. -/
def isWs (c : Char) : Bool := c.isWhitespace

/-- Does `hay` start with `needle`?  (helper for JS `includes`). -/
def leadsWith : Str → Str → Bool
  | [], _ => true
  | _ :: _, [] => false
  | n :: ns, h :: hs => n == h && leadsWith ns hs

/-- JS `hay.includes(needle)`: `needle` occurs contiguously inside `hay`. -/
def containsSeq (needle : Str) : Str → Bool
  | [] => needle.isEmpty
  | c :: rest => leadsWith needle (c :: rest) || containsSeq needle rest

/-- JS `trim()`: drop leading and trailing whitespace. -/
def trimStr (s : Str) : Str :=
  ((s.dropWhile isWs).reverse.dropWhile isWs).reverse

/-- Accumulator-style splitting of a string at every comma; mirrors JS
`split(',')`, which yields one (possibly empty) field per comma-separated
segment. -/
def splitCommaAux : Str → Str → List Str
  | [], acc => [acc.reverse]
  | c :: rest, acc =>
    if c == ',' then acc.reverse :: splitCommaAux rest []
    else splitCommaAux rest (c :: acc)

/-- JS `s.split(',')`. -/
def splitComma (s : Str) : List Str := splitCommaAux s []

/-- JS `tokens.join(',')`. -/
def joinComma : List Str → Str
  | [] => []
  | [t] => t
  | t :: rest => t ++ ',' :: joinComma rest

/-- From `frontend/src/types/job.ts` (`formatSkills`): split a nullable
comma-separated skills string, trim each piece, and keep the nonempty ones.
The `some []` case mirrors JS treating the empty string as falsy. -/
def formatSkills : Option Str → List Str
  | none => []
  | some [] => []
  | some s => ((splitComma s).map trimStr).filter (fun t => decide (0 < t.length))

/-- `formatSkills` on a present string is the split-trim-filter pipeline, also
for the empty string (where the early JS return and the pipeline agree). -/
theorem formatSkills_some (s : Str) :
    formatSkills (some s)
      = ((splitComma s).map trimStr).filter (fun t => decide (0 < t.length)) := by
  cases s with
  | nil => rfl
  | cons c rest => rfl

/-- Dropping a satisfied prefix twice is the same as dropping it once. -/
theorem dropWhile_isWs_idem (l : Str) :
    (l.dropWhile isWs).dropWhile isWs = l.dropWhile isWs := by
  induction l with
  | nil => rfl
  | cons a t ih =>
    by_cases h : isWs a
    · simp [List.dropWhile_cons, h, ih]
    · simp [List.dropWhile_cons, h]

/-- A list fixed by `dropWhile isWs` is empty or starts with non-whitespace. -/
theorem dropWhile_isWs_fixed (l : Str) (h : l.dropWhile isWs = l) :
    l = [] ∨ ∃ a t, l = a :: t ∧ isWs a = false := by
  cases l with
  | nil => exact Or.inl rfl
  | cons a t =>
    by_cases hw : isWs a
    · exfalso
      rw [List.dropWhile_cons, if_pos hw] at h
      have hlen := (List.dropWhile_sublist (l := t) isWs).length_le
      rw [h] at hlen
      simp at hlen
    · exact Or.inr ⟨a, t, rfl, by simp [hw]⟩

/-- A list that is empty or starts with non-whitespace is fixed by
`dropWhile isWs`. -/
theorem dropWhile_isWs_of_head (l : Str)
    (h : l = [] ∨ ∃ a t, l = a :: t ∧ isWs a = false) :
    l.dropWhile isWs = l := by
  rcases h with rfl | ⟨a, t, rfl, ha⟩
  · rfl
  · simp [List.dropWhile_cons, ha]

/-- `trimStr` leaves no leading whitespace. -/
theorem dropWhile_trimStr (s : Str) :
    (trimStr s).dropWhile isWs = trimStr s := by
  apply dropWhile_isWs_of_head
  unfold trimStr
  generalize hu : s.dropWhile isWs = u
  have hufix : u.dropWhile isWs = u := by rw [← hu]; exact dropWhile_isWs_idem s
  cases hw : u.reverse.dropWhile isWs with
  | nil => exact Or.inl (by rfl)
  | cons b t =>
    right
    -- `u.reverse = takeWhile ++ (b :: t)`, so `(b :: t).reverse` starts `u`
    have hdecomp : u.reverse.takeWhile isWs ++ (b :: t) = u.reverse := by
      rw [← hw]; exact List.takeWhile_append_dropWhile isWs u.reverse
    have huval : u = (b :: t).reverse ++ (u.reverse.takeWhile isWs).reverse := by
      have h2 := congrArg List.reverse hdecomp
      simpa [List.reverse_append] using h2.symm
    rcases dropWhile_isWs_fixed u hufix with hnil | ⟨a, t', hut, ha⟩
    · exfalso
      rw [hnil] at huval
      have hlen := congrArg List.length huval
      simp at hlen
    · -- head of `(b :: t).reverse` is the head of `u`, which is non-whitespace
      obtain ⟨c, cs, hcc⟩ :=
        List.exists_cons_of_ne_nil (by simp : (b :: t).reverse ≠ [])
      refine ⟨c, cs, hcc, ?_⟩
      rw [hut, hcc] at huval
      simp at huval
      rw [huval.1] at ha
      exact ha

/-- `trimStr` leaves no trailing whitespace. -/
theorem dropWhile_reverse_trimStr (s : Str) :
    (trimStr s).reverse.dropWhile isWs = (trimStr s).reverse := by
  unfold trimStr
  rw [List.reverse_reverse]
  exact dropWhile_isWs_idem _

/-- Trimming is idempotent. -/
theorem trimStr_idem (s : Str) : trimStr (trimStr s) = trimStr s := by
  have h1 := dropWhile_trimStr s
  have h2 := dropWhile_reverse_trimStr s
  conv_lhs => rw [trimStr, h1, h2, List.reverse_reverse]

/-- Every character of the trimmed string occurs in the original. -/
theorem mem_of_mem_trimStr {c : Char} {s : Str} (h : c ∈ trimStr s) : c ∈ s := by
  unfold trimStr at h
  rw [List.mem_reverse] at h
  have h' := (List.dropWhile_sublist (l := (s.dropWhile isWs).reverse) isWs).mem h
  rw [List.mem_reverse] at h'
  exact (List.dropWhile_sublist isWs).mem h'

/-- Splitting a comma-free string yields the accumulated segment alone. -/
theorem splitCommaAux_no_comma (s : Str) (acc : Str) (h : ',' ∉ s) :
    splitCommaAux s acc = [acc.reverse ++ s] := by
  induction s generalizing acc with
  | nil => simp [splitCommaAux]
  | cons c rest ih =>
    have hc : c ≠ ',' := fun hcc => h (hcc ▸ List.mem_cons_self c rest)
    have hrest : ',' ∉ rest := fun hm => h (List.mem_cons_of_mem c hm)
    simp only [splitCommaAux, beq_iff_eq, if_neg hc, ih (c :: acc) hrest]
    simp

/-- Splitting at the first comma peels off the comma-free segment before it. -/
theorem splitCommaAux_append (s1 s2 : Str) (acc : Str) (h : ',' ∉ s1) :
    splitCommaAux (s1 ++ ',' :: s2) acc
      = (acc.reverse ++ s1) :: splitCommaAux s2 [] := by
  induction s1 generalizing acc with
  | nil => simp [splitCommaAux]
  | cons c rest ih =>
    have hc : c ≠ ',' := fun hcc => h (hcc ▸ List.mem_cons_self c rest)
    have hrest : ',' ∉ rest := fun hm => h (List.mem_cons_of_mem c hm)
    rw [List.cons_append]
    simp only [splitCommaAux, beq_iff_eq, if_neg hc]
    rw [ih (c :: acc) hrest]
    simp

/-- Splitting the comma-join of comma-free tokens recovers the tokens. -/
theorem splitComma_joinComma (ts : List Str) (hne : ts ≠ [])
    (h : ∀ t ∈ ts, ',' ∉ t) :
    splitComma (joinComma ts) = ts := by
  induction ts with
  | nil => exact absurd rfl hne
  | cons t rest ih =>
    cases rest with
    | nil =>
      show splitCommaAux (joinComma [t]) [] = [t]
      simp only [joinComma]
      rw [splitCommaAux_no_comma t [] (h t (List.mem_cons_self t []))]
      simp
    | cons t2 rest2 =>
      show splitCommaAux (joinComma (t :: t2 :: rest2)) [] = t :: t2 :: rest2
      simp only [joinComma]
      rw [splitCommaAux_append t (joinComma (t2 :: rest2)) []
        (h t (List.mem_cons_self t _))]
      simp only [List.reverse_nil, List.nil_append, List.cons.injEq, true_and]
      exact ih (by simp) (fun u hu => h u (List.mem_cons_of_mem t hu))

/-- Every token produced by `formatSkills` is trimmed, nonempty and
comma-free. -/
theorem formatSkills_token_shape (s : Str) (t : Str)
    (ht : t ∈ formatSkills (some s)) :
    trimStr t = t ∧ t ≠ [] ∧ ',' ∉ t := by
  rw [formatSkills_some] at ht
  rw [List.mem_filter] at ht
  obtain ⟨hmem, hlen⟩ := ht
  rw [List.mem_map] at hmem
  obtain ⟨seg, hseg, rfl⟩ := hmem
  refine ⟨trimStr_idem seg, ?_, ?_⟩
  · intro hnil
    rw [hnil] at hlen
    simp at hlen
  · -- segments of `splitComma` contain no comma, and `trimStr` keeps only
    -- characters of its input
    have hseg_no : ',' ∉ seg := by
      have haux : ∀ (u : Str) (acc : Str), ',' ∉ acc →
          ∀ x ∈ splitCommaAux u acc, ',' ∉ x := by
        intro u
        induction u with
        | nil =>
          intro acc hacc x hx
          simp [splitCommaAux] at hx
          rw [hx]
          simpa using hacc
        | cons c rest ih =>
          intro acc hacc x hx
          by_cases hc : c = ','
          · simp only [splitCommaAux, beq_iff_eq, if_pos hc] at hx
            rcases List.mem_cons.mp hx with rfl | hx2
            · simpa using hacc
            · exact ih [] (by simp) x hx2
          · simp only [splitCommaAux, beq_iff_eq, if_neg hc] at hx
            refine ih (c :: acc) ?_ x hx
            intro hm
            rcases List.mem_cons.mp hm with h1 | h2
            · exact hc h1.symm
            · exact hacc h2
      exact haux s [] (by simp) seg hseg
    intro hmm
    exact hseg_no (mem_of_mem_trimStr hmm)

/-- C9: canonicalization round-trip — re-joining the tokens of `formatSkills`
with the comma separator and canonicalizing again yields the same token
sequence. -/
theorem c9_canonicalize_roundtrip (s : Option Str) :
    formatSkills (some (joinComma (formatSkills s))) = formatSkills s := by
  cases s with
  | none => rfl
  | some s =>
    cases hts : formatSkills (some s) with
    | nil => rfl
    | cons t rest =>
      have hshape : ∀ u ∈ t :: rest, trimStr u = u ∧ u ≠ [] ∧ ',' ∉ u := by
        intro u hu
        exact formatSkills_token_shape s u (by rw [hts]; exact hu)
      rw [formatSkills_some]
      rw [splitComma_joinComma (t :: rest) (by simp)
        (fun u hu => (hshape u hu).2.2)]
      rw [(List.map_congr_left (fun u hu => (hshape u hu).1)).trans
        (List.map_id (t :: rest))]
      rw [List.filter_eq_self.mpr]
      intro u hu
      have := (hshape u hu).2.1
      simp only [decide_eq_true_eq]
      cases u with
      | nil => exact absurd rfl this
      | cons a b => simp

/-- C3 counterexample: the claim says canonicalization case-folds each token
and de-duplicates; on the input `"A, a"` the code returns the two tokens
`"A"` and `"a"` unchanged — they differ only by case, so the output is
neither case-folded nor de-duplicated (a case-folding, de-duplicating
canonicalizer would return the single token `"a"`). -/
theorem c3_canonicalize_counterexample :
    formatSkills (some ("A, a".toList)) = ["A".toList, "a".toList]
      ∧ "A".toList ≠ "a".toList
      ∧ lowerStr ("A".toList) = lowerStr ("a".toList) := by
  refine ⟨?_, ?_, ?_⟩ <;> decide

/-- C3 (amended): the canonicalization implemented by `formatSkills` (and the
identical pipeline in `handleSkillsChange`) splits on commas, trims
surrounding whitespace from each token, and drops empty tokens — every token
it returns is trimmed, nonempty and comma-free — but it neither case-folds
nor de-duplicates. -/
theorem c3_canonicalize_amended (s : Str) (t : Str)
    (ht : t ∈ formatSkills (some s)) :
    trimStr t = t ∧ t ≠ [] ∧ ',' ∉ t :=
  formatSkills_token_shape s t ht

/-- Witness for C3 (amended) at the concrete input `"  a , b"`. -/
theorem c3_canonicalize_amended_witness :
    trimStr ("a".toList) = "a".toList ∧ "a".toList ≠ [] ∧ ',' ∉ "a".toList :=
  c3_canonicalize_amended ("  a , b".toList) ("a".toList) (by decide)

/-- Pay periods, per the data model (`SALARY_PERIODS` in the front-end types
and §3 of the spec). -/
inductive Period where
  | hourly
  | weekly
  | monthly
  | yearly
deriving DecidableEq, Repr

/-- Annualization factor for each pay period (spec §4.1 conversion table). -/
def periodFactor : Period → ℚ
  | .hourly => 2080
  | .weekly => 52
  | .monthly => 12
  | .yearly => 1

/-- Modelled from the spec (§4.1 Salary Normalizer; the backend implementation
is not among the available sources): convert an (amount, period) pair to an
annual figure; a null period means yearly; non-positive amounts are absent. -/
def annualize (amount : ℚ) (period : Option Period) : Option ℚ :=
  if amount ≤ 0 then none
  else some (amount * periodFactor (period.getD Period.yearly))

/-- Modelled from the spec (§3 CandidateProfile). -/
structure CandidateProfile where
  desiredSalaryMin : Option ℚ
  desiredSalaryMax : Option ℚ
  desiredSalaryPeriod : Option Period
  seniority : Option Str
  desiredJobTypes : List Str
  desiredJobTitles : List Str
  desiredSkills : List Str
  educationLevel : Option Str

/-- Modelled from the spec (§3 JobPosting). -/
structure Posting where
  id : ℤ
  url : Str
  title : Option Str
  employer : Option Str
  location : Option Str
  jobType : Option Str
  seniority : Option Str
  educationLevel : Option Str
  description : Option Str
  skills : Option Str
  primarySalaryMin : Option ℚ
  primarySalaryMax : Option ℚ
  primarySalaryRate : Option Period
  secondarySalaryMin : Option ℚ
  secondarySalaryMax : Option ℚ
  secondarySalaryRate : Option Period
  datePosted : Option ℤ

/-- Modelled from the spec (§3 MatchResult); `datePosted` is carried from the
posting because the ranker's tie-break reads it (the API's `JobMatch` record
likewise carries `date_posted` next to the scores). -/
structure MatchResult where
  jobId : ℤ
  datePosted : Option ℤ
  compositeScore : ℚ
  jobTypeScore : ℚ
  titleScore : ℚ
  skillsScore : ℚ
  salaryScore : ℚ
deriving DecidableEq, Repr

/-- Modelled from the spec (§4.1): a posting's annualized (min, max), from
whichever of primary/secondary range is present, preferring primary; a missing
bound stays `none` (open side). -/
def postingAnnualized (p : Posting) : Option ℚ × Option ℚ :=
  if p.primarySalaryMin.isSome || p.primarySalaryMax.isSome then
    (p.primarySalaryMin.bind (fun a => annualize a p.primarySalaryRate),
     p.primarySalaryMax.bind (fun a => annualize a p.primarySalaryRate))
  else
    (p.secondarySalaryMin.bind (fun a => annualize a p.secondarySalaryRate),
     p.secondarySalaryMax.bind (fun a => annualize a p.secondarySalaryRate))

/-- `≤` between optional bounds where a missing bound is no constraint. -/
def leqOpt : Option ℚ → Option ℚ → Bool
  | some x, some y => decide (x ≤ y)
  | _, _ => true

/-- Gap between the nearer posting bound and the nearer desired bound of two
disjoint ranges (spec §4.3 salary scorer). -/
def salaryGap (dmin? dmax? pmin? pmax? : Option ℚ) : ℚ :=
  if leqOpt pmin? dmax? then
    match dmin?, pmax? with
    | some dmin, some pmax => dmin - pmax
    | _, _ => 0
  else
    match pmin?, dmax? with
    | some pmin, some dmax => pmin - dmax
    | _, _ => 0

/-- Midpoint of the desired range; with a single declared bound that bound
stands in for the midpoint. -/
def desiredMidpoint (dmin? dmax? : Option ℚ) : ℚ :=
  (dmin?.getD (dmax?.getD 0) + dmax?.getD (dmin?.getD 0)) / 2

/-- Modelled from the spec (§4.3 salary scorer; the backend implementation is
not among the available sources): 1 with no declared desired bounds, 0 with no
usable posting salary, 1 on overlap, otherwise a linear decay hitting 0 once
the gap reaches half the desired midpoint. -/
def salaryScore (dmin? dmax? pmin? pmax? : Option ℚ) : ℚ :=
  if dmin?.isNone && dmax?.isNone then 1
  else if pmin?.isNone && pmax?.isNone then 0
  else if leqOpt pmin? dmax? && leqOpt dmin? pmax? then 1
  else
    let gap := salaryGap dmin? dmax? pmin? pmax?
    let mid := desiredMidpoint dmin? dmax?
    if mid ≤ 0 then 0 else max 0 (1 - gap / (mid / 2))

/-- Case-insensitive containment in either direction (spec §4.3 skills
scorer: "one contains the other as a substring, case-insensitively"). -/
def tokensMatch (d p : Str) : Bool :=
  containsSeq (lowerStr d) (lowerStr p) || containsSeq (lowerStr p) (lowerStr d)

/-- Modelled from the spec (§4.3 skills scorer; the backend implementation is
not among the available sources): fraction of the canonicalized desired skills
`D` that containment-match some canonicalized posting skill in `P`. -/
def skillsScore (D P : List Str) : ℚ :=
  if D.isEmpty then 1
  else if P.isEmpty then 0
  else ((D.filter (fun d => P.any (fun p => tokensMatch d p))).length : ℚ)
        / (D.length : ℚ)

/-- Modelled from the spec (§4.3 job-type scorer; the backend implementation
is not among the available sources): 1 with no declared desired types, else 1
exactly when the posting's job type case-insensitively contains some desired
type, else 0. -/
def jobTypeScore (desired : List Str) (jt : Option Str) : ℚ :=
  if desired.isEmpty then 1
  else
    match jt with
    | none => 0
    | some t =>
      if desired.any (fun d => containsSeq (lowerStr d) (lowerStr t)) then 1
      else 0

/-- De-duplicate keeping the first occurrence of each token. -/
def dedupFirstAux (seen : List Str) : List Str → List Str
  | [] => []
  | a :: as =>
    if a ∈ seen then dedupFirstAux seen as
    else a :: dedupFirstAux (a :: seen) as

/-- De-duplicate a token list, preserving first-occurrence order. -/
def dedupFirst (l : List Str) : List Str := dedupFirstAux [] l

/-- Accumulator-style whitespace splitting (empty fields dropped). -/
def splitWsAux : Str → Str → List Str
  | [], acc => if acc.isEmpty then [] else [acc.reverse]
  | c :: rest, acc =>
    if isWs c then
      if acc.isEmpty then splitWsAux rest []
      else acc.reverse :: splitWsAux rest []
    else splitWsAux rest (c :: acc)

/-- Split a string on whitespace, dropping empty fields. -/
def splitWs (s : Str) : List Str := splitWsAux s []

/-- Modelled from the spec (§4.2 canonicalizer, whitespace mode for titles):
split on whitespace, case-fold, de-duplicate preserving first occurrence. -/
def canonWords (s : Str) : List Str :=
  dedupFirst ((splitWs s).map lowerStr)

/-- Jaccard overlap of two token lists viewed as sets (spec §4.3 title
scorer). -/
def jaccard (A B : List Str) : ℚ :=
  let inter := A.filter (fun x => decide (x ∈ B))
  let union := A ++ B.filter (fun x => decide (x ∉ A))
  if union.isEmpty then 0
  else (inter.length : ℚ) / (union.length : ℚ)

/-- Modelled from the spec (§4.3 title scorer; the backend implementation is
not among the available sources): best Jaccard overlap of any desired title
phrase against the posting title's word set. -/
def titleScore (desiredTitles : List Str) (title : Option Str) : ℚ :=
  if desiredTitles.isEmpty then 1
  else
    match title with
    | none => 0
    | some t =>
      (desiredTitles.map (fun ph => jaccard (canonWords ph) (canonWords t))).foldr max 0

/-- Modelled from the spec (§4.2 canonicalizer, comma mode): canonical skill
tokens of a nullable comma-separated skills string — split, trim, case-fold,
drop empties, de-duplicate. -/
def canonSkillStr : Option Str → List Str
  | none => []
  | some s =>
    dedupFirst
      (((splitComma s).map (fun t => trimStr (lowerStr t))).filter
        (fun t => !t.isEmpty))

/-- Modelled from the spec (§4.2): canonical tokens of the profile's desired
skill phrases (already a list; each phrase trimmed, case-folded, empties
dropped, then de-duplicated). -/
def canonSkillList (l : List Str) : List Str :=
  dedupFirst ((l.map (fun t => trimStr (lowerStr t))).filter (fun t => !t.isEmpty))

/-- From the repository README (`calculate_match_score`): fixed-weight
combination of the four dimension scores. -/
def calculate_match_score (skills title job_type salary : ℚ) : ℚ :=
  skills * 0.4 + title * 0.3 + job_type * 0.2 + salary * 0.1

/-- Modelled from the spec (§4.4, §4.5 result builder): score one posting
against the profile on all four dimensions and assemble the MatchResult. -/
def scorePosting (profile : CandidateProfile) (p : Posting) : MatchResult :=
  let D := canonSkillList profile.desiredSkills
  let P := canonSkillStr p.skills
  let sk := skillsScore D P
  let ti := titleScore profile.desiredJobTitles p.title
  let jt := jobTypeScore profile.desiredJobTypes p.jobType
  let dmin? := profile.desiredSalaryMin.bind
    (fun a => annualize a profile.desiredSalaryPeriod)
  let dmax? := profile.desiredSalaryMax.bind
    (fun a => annualize a profile.desiredSalaryPeriod)
  let ann := postingAnnualized p
  let sal := salaryScore dmin? dmax? ann.1 ann.2
  { jobId := p.id
    datePosted := p.datePosted
    compositeScore := calculate_match_score sk ti jt sal
    jobTypeScore := jt
    titleScore := ti
    skillsScore := sk
    salaryScore := sal }

/-- Ranker tie-break on optional dates: a missing date sorts as oldest. -/
def dateLE : Option ℤ → Option ℤ → Bool
  | none, _ => true
  | some _, none => false
  | some x, some y => decide (x ≤ y)

/-- Modelled from the spec (§4.4 ranker ordering): `a` sorts no later than
`b` — composite score descending, then `datePosted` descending, then `id`
ascending. -/
def rankLE (a b : MatchResult) : Bool :=
  if a.compositeScore = b.compositeScore then
    if a.datePosted = b.datePosted then decide (a.jobId ≤ b.jobId)
    else dateLE b.datePosted a.datePosted
  else decide (b.compositeScore ≤ a.compositeScore)

/-- Modelled from the spec (§6 entry point): score every posting and sort by
the ranker ordering. -/
def engineMatch (profile : CandidateProfile) (ps : List Posting) :
    List MatchResult :=
  (ps.map (scorePosting profile)).mergeSort rankLE

/-- From `frontend/src/types/job.ts` (`JobMatch`): the record the jobs page
filters and displays. -/
structure JobMatch where
  id : ℤ
  job_title : Option Str
  employer : Option Str
  location : Option Str
  date_posted : Option Str
  primary_salary_min : Option ℚ
  primary_salary_max : Option ℚ
  primary_salary_rate : Option Str
  secondary_salary_min : Option ℚ
  secondary_salary_max : Option ℚ
  secondary_salary_rate : Option Str
  job_type : Option Str
  skills : Option Str
  description : Option Str
  seniority : Option Str
  education_level : Option Str
  normalized_salary_min : Option ℚ
  normalized_salary_max : Option ℚ
  url : Str
  score : ℚ
  job_type_score : ℚ
  title_score : ℚ
  skills_score : ℚ
  salary_score : ℚ

/-- From `frontend/src/types/job.ts` (`JobFilters`). -/
structure JobFilters where
  salaryMin : Option ℚ
  salaryMax : Option ℚ
  salaryPeriod : Option Period
  jobType : Option (List Str)
  jobTitles : Option (List Str)
  skills : Option (List Str)

/-- JS truthiness of an optional number (`undefined`/`null` and `0` are
falsy). -/
def truthyNum : Option ℚ → Bool
  | none => false
  | some x => decide (x ≠ 0)

/-- JS truthiness of an optional string (absent and empty are falsy). -/
def truthyStrOpt : Option Str → Bool
  | none => false
  | some s => !s.isEmpty

/-- The `filters.xs && filters.xs.length > 0` guard of `applyFilters`. -/
def activeList : Option (List Str) → Bool
  | none => false
  | some l => !l.isEmpty

/-- From the jobs page (`applyFilters`): the job's salary used by the salary
filter — `job.normalized_salary_min || job.primary_salary_min` under JS `||`
semantics (a null or zero normalized minimum falls through to the primary
minimum). -/
def effectiveSalary (job : JobMatch) : Option ℚ :=
  if truthyNum job.normalized_salary_min then job.normalized_salary_min
  else job.primary_salary_min

/-- From the jobs page (`applyFilters`), salary branch: jobs without salary
info are included; otherwise the salary must sit inside the truthy filter
bounds. -/
def salaryPass (f : JobFilters) (job : JobMatch) : Bool :=
  let jobSalary := effectiveSalary job
  if !truthyNum jobSalary then true
  else
    let v := jobSalary.getD 0
    if truthyNum f.salaryMin && decide (v < f.salaryMin.getD 0) then false
    else if truthyNum f.salaryMax && decide (v > f.salaryMax.getD 0) then false
    else true

/-- From the jobs page (`applyFilters`), job-type branch. -/
def jobTypePass (f : JobFilters) (job : JobMatch) : Bool :=
  if !truthyStrOpt job.job_type then false
  else
    (f.jobType.getD []).any
      (fun ty => containsSeq (lowerStr ty) (lowerStr (job.job_type.getD [])))

/-- From the jobs page (`applyFilters`), job-titles branch. -/
def jobTitlesPass (f : JobFilters) (job : JobMatch) : Bool :=
  if !truthyStrOpt job.job_title then false
  else
    (f.jobTitles.getD []).any
      (fun ti => containsSeq (lowerStr ti) (lowerStr (job.job_title.getD [])))

/-- From the jobs page (`applyFilters`), skills branch. -/
def skillsPass (f : JobFilters) (job : JobMatch) : Bool :=
  if !truthyStrOpt job.skills then false
  else
    (f.skills.getD []).any
      (fun sk => containsSeq (lowerStr sk) (lowerStr (job.skills.getD [])))

/-- From the jobs page (`applyFilters`): chain the four presentation-layer
filters, each applied only when its filter value is active. -/
def applyFilters (f : JobFilters) (jobs : List JobMatch) : List JobMatch :=
  let f1 :=
    if truthyNum f.salaryMin || truthyNum f.salaryMax then
      jobs.filter (salaryPass f)
    else jobs
  let f2 := if activeList f.jobType then f1.filter (jobTypePass f) else f1
  let f3 := if activeList f.jobTitles then f2.filter (jobTitlesPass f) else f2
  if activeList f.skills then f3.filter (skillsPass f) else f3

/-- C1: every posting's composite score is the fixed weighted sum
0.4·skills + 0.3·title + 0.2·jobType + 0.1·salary of its four dimension
scores, and the four weights sum to 1. -/
theorem c1_composite_weighted_sum (profile : CandidateProfile) (p : Posting) :
    (scorePosting profile p).compositeScore
        = 0.4 * (scorePosting profile p).skillsScore
          + 0.3 * (scorePosting profile p).titleScore
          + 0.2 * (scorePosting profile p).jobTypeScore
          + 0.1 * (scorePosting profile p).salaryScore
      ∧ (0.4 : ℚ) + 0.3 + 0.2 + 0.1 = 1 := by
  refine ⟨?_, by norm_num⟩
  simp only [scorePosting, calculate_match_score]
  ring

/-- C4: annualization multiplies by 2080 / 52 / 12 / 1 for hourly / weekly /
monthly / yearly, a null period is yearly, and a non-positive amount is
absent. -/
theorem c4_annualize (a : ℚ) :
    (0 < a →
        annualize a (some Period.hourly) = some (a * 2080)
      ∧ annualize a (some Period.weekly) = some (a * 52)
      ∧ annualize a (some Period.monthly) = some (a * 12)
      ∧ annualize a (some Period.yearly) = some (a * 1))
  ∧ annualize a none = annualize a (some Period.yearly)
  ∧ (a ≤ 0 → ∀ p : Option Period, annualize a p = none) := by
  refine ⟨?_, rfl, ?_⟩
  · intro h
    have hna : ¬a ≤ 0 := not_le.mpr h
    refine ⟨?_, ?_, ?_, ?_⟩ <;> simp [annualize, hna, periodFactor]
  · intro h p
    simp [annualize, h]

/-- Witness for C4 at amount 10. -/
theorem c4_annualize_witness :
    annualize 10 (some Period.hourly) = some (10 * 2080) :=
  ((c4_annualize 10).1 (by norm_num)).1

/-- C7: the job-type score is 1 with no declared desired types; otherwise it
is 1 exactly when the posting's job type is present and case-insensitively
contains some desired type, and 0 in every other case (including an absent
job type). -/
theorem c7_job_type_score (desired : List Str) (jt : Option Str) :
    (desired = [] → jobTypeScore desired jt = 1)
  ∧ (desired ≠ [] →
      (jobTypeScore desired jt = 1
        ↔ ∃ t, jt = some t
            ∧ ∃ d ∈ desired, containsSeq (lowerStr d) (lowerStr t) = true))
  ∧ (desired ≠ [] → jt = none → jobTypeScore desired jt = 0)
  ∧ (jobTypeScore desired jt = 0 ∨ jobTypeScore desired jt = 1) := by
  refine ⟨?_, ?_, ?_, ?_⟩
  · intro h
    simp [jobTypeScore, h]
  · intro h
    have hne : desired.isEmpty = false := by
      simpa [List.isEmpty_iff] using h
    cases jt with
    | none =>
      simp only [jobTypeScore, hne, Bool.false_eq_true, if_false]
      constructor
      · intro h01
        exact absurd h01 (by norm_num)
      · rintro ⟨t, ht, -⟩
        exact Option.noConfusion ht
    | some t =>
      simp only [jobTypeScore, hne, Bool.false_eq_true, if_false]
      by_cases hany :
          desired.any (fun d => containsSeq (lowerStr d) (lowerStr t)) = true
      · rw [if_pos hany]
        simp only [List.any_eq_true] at hany
        obtain ⟨d, hd, hdt⟩ := hany
        exact ⟨fun _ => ⟨t, rfl, d, hd, hdt⟩, fun _ => rfl⟩
      · rw [if_neg hany]
        constructor
        · intro h01
          exact absurd h01 (by norm_num)
        · rintro ⟨t', ht', d, hd, hdt⟩
          obtain rfl : t' = t := by
            injection ht' with h2
            exact h2.symm
          exact absurd (List.any_eq_true.mpr ⟨d, hd, hdt⟩) hany
  · intro h hnone
    have hne : desired.isEmpty = false := by
      simpa [List.isEmpty_iff] using h
    subst hnone
    simp [jobTypeScore, hne]
  · by_cases h : desired.isEmpty = true
    · right
      simp [jobTypeScore, h]
    · cases jt with
      | none =>
        left
        simp [jobTypeScore, h]
      | some t =>
        simp only [jobTypeScore, h, Bool.false_eq_true, if_false]
        by_cases hany :
            desired.any (fun d => containsSeq (lowerStr d) (lowerStr t)) = true
        · right
          rw [if_pos hany]
        · left
          rw [if_neg hany]

/-- Witness for C7: desired type "remote" matches posting type
"Remote, full time". -/
theorem c7_job_type_score_witness :
    jobTypeScore ["remote".toList] (some ("Remote, full time".toList)) = 1 :=
  ((c7_job_type_score ["remote".toList]
      (some ("Remote, full time".toList))).2.1 (by decide)).mpr
    ⟨"Remote, full time".toList, rfl, "remote".toList, by decide, by decide⟩

/-- C2: the skills score is in [0,1]; it is 1 for an empty desired list, 0
for a nonempty desired list against an empty posting list, and otherwise the
matched fraction |D ∩ P| / |D| under case-insensitive containment; it equals
1 exactly when every desired token containment-matches some posting token. -/
theorem c2_skills_score (D P : List Str) :
    (0 ≤ skillsScore D P ∧ skillsScore D P ≤ 1)
  ∧ (D = [] → skillsScore D P = 1)
  ∧ (D ≠ [] → P = [] → skillsScore D P = 0)
  ∧ (D ≠ [] → P ≠ [] →
      skillsScore D P
        = ((D.filter (fun d => P.any (fun p => tokensMatch d p))).length : ℚ)
            / (D.length : ℚ))
  ∧ (skillsScore D P = 1 ↔ ∀ d ∈ D, ∃ p ∈ P, tokensMatch d p = true) := by
  by_cases hD : D = []
  · subst hD
    refine ⟨⟨by norm_num [skillsScore], by norm_num [skillsScore]⟩,
      fun _ => by simp [skillsScore], fun h => absurd rfl h, fun h => absurd rfl h,
      ?_⟩
    simp [skillsScore]
  · by_cases hP : P = []
    · subst hP
      have h0 : skillsScore D [] = 0 := by
        simp [skillsScore, List.isEmpty_iff, hD]
      obtain ⟨d0, hd0⟩ := List.exists_mem_of_ne_nil D hD
      refine ⟨⟨by rw [h0], by rw [h0]; norm_num⟩, fun h => absurd h hD,
        fun _ _ => h0, fun _ h => absurd rfl h, ?_⟩
      rw [h0]
      constructor
      · intro h01
        exact absurd h01.symm (by norm_num)
      · intro hall
        obtain ⟨p, hp, -⟩ := hall d0 hd0
        exact absurd hp (List.not_mem_nil p)
    · have hdiv : skillsScore D P
          = ((D.filter (fun d => P.any (fun p => tokensMatch d p))).length : ℚ)
              / (D.length : ℚ) := by
        simp [skillsScore, List.isEmpty_iff, hD, hP]
      have hlenpos : 0 < (D.length : ℚ) := by
        have : 0 < D.length := List.length_pos.mpr hD
        exact_mod_cast this
      have hfle := List.length_filter_le
        (fun d => P.any (fun p => tokensMatch d p)) D
      refine ⟨⟨?_, ?_⟩, fun h => absurd h hD, fun _ h => absurd h hP,
        fun _ _ => hdiv, ?_⟩
      · rw [hdiv]
        positivity
      · rw [hdiv]
        rw [div_le_one hlenpos]
        exact_mod_cast hfle
      · rw [hdiv]
        rw [div_eq_one_iff_eq (ne_of_gt hlenpos)]
        rw [show ((D.length : ℚ) = ((D.length : ℕ) : ℚ)) from rfl]
        rw [Nat.cast_inj]
        constructor
        · intro hlen
          have hfeq :
              D.filter (fun d => P.any (fun p => tokensMatch d p)) = D :=
            (List.filter_sublist D).eq_of_length hlen
          intro d hd
          have := List.filter_eq_self.mp hfeq d hd
          simpa [List.any_eq_true] using this
        · intro hall
          have hfeq :
              D.filter (fun d => P.any (fun p => tokensMatch d p)) = D := by
            rw [List.filter_eq_self]
            intro d hd
            simpa [List.any_eq_true] using hall d hd
          rw [hfeq]

/-- Witness for C2: one desired skill "react" against posting tokens
["react.js", "sql"] scores 1 (containment match). -/
theorem c2_skills_score_witness :
    skillsScore ["react".toList] ["react.js".toList, "sql".toList] = 1 :=
  (c2_skills_score ["react".toList] ["react.js".toList, "sql".toList]).2.2.2.2.mpr
    (by decide)

/-- C10 (implicit, presentation layer): a job whose effective salary — the
normalized minimum, falling back under JS `||` to the primary minimum — is
null or 0 passes the salary filter for every choice of `salaryMin` and
`salaryMax`, and is never removed by `applyFilters` when only the salary
filter is active. -/
theorem c10_salary_filter_keeps_absent (f : JobFilters) (job : JobMatch)
    (h : effectiveSalary job = none ∨ effectiveSalary job = some 0) :
    salaryPass f job = true
  ∧ (∀ jobs : List JobMatch, f.jobType = none → f.jobTitles = none →
      f.skills = none → job ∈ jobs → job ∈ applyFilters f jobs) := by
  have hfalse : truthyNum (effectiveSalary job) = false := by
    rcases h with h | h <;> simp [h, truthyNum]
  have hpass : salaryPass f job = true := by
    simp [salaryPass, hfalse]
  refine ⟨hpass, ?_⟩
  intro jobs h1 h2 h3 hmem
  by_cases hs : (truthyNum f.salaryMin || truthyNum f.salaryMax) = true
  · simp [applyFilters, activeList, h1, h2, h3, hs, List.mem_filter, hmem,
      hpass]
  · simp [applyFilters, activeList, h1, h2, h3, hs, hmem]

/-- A concrete `JobMatch` with no salary information, used by witnesses. -/
def sampleJob : JobMatch where
  id := 1
  job_title := some ("Engineer".toList)
  employer := none
  location := none
  date_posted := none
  primary_salary_min := none
  primary_salary_max := none
  primary_salary_rate := none
  secondary_salary_min := none
  secondary_salary_max := none
  secondary_salary_rate := none
  job_type := none
  skills := none
  description := none
  seniority := none
  education_level := none
  normalized_salary_min := none
  normalized_salary_max := none
  url := "https://example.com/job/1".toList
  score := 0
  job_type_score := 0
  title_score := 0
  skills_score := 0
  salary_score := 0

/-- A concrete salary-only filter, used by witnesses. -/
def sampleFilters : JobFilters where
  salaryMin := some 50000
  salaryMax := none
  salaryPeriod := none
  jobType := none
  jobTitles := none
  skills := none

/-- Witness for C10: the salary-less `sampleJob` survives a minimum-salary
filter of 50000. -/
theorem c10_salary_filter_keeps_absent_witness :
    salaryPass sampleFilters sampleJob = true
      ∧ sampleJob ∈ applyFilters sampleFilters [sampleJob] := by
  have h := c10_salary_filter_keeps_absent sampleFilters sampleJob
    (Or.inl (by rfl))
  exact ⟨h.1, h.2 [sampleJob] rfl rfl rfl (by simp)⟩

/-- Two possibly open-ended annualized ranges overlap: every comparison
between a present posting bound and the opposing present desired bound is
satisfied, a missing bound constraining nothing (spec §4.1/§4.3). -/
def rangesOverlap (dmin? dmax? pmin? pmax? : Option ℚ) : Prop :=
  (∀ pmin ∈ pmin?, ∀ dmax ∈ dmax?, pmin ≤ dmax)
    ∧ (∀ dmin ∈ dmin?, ∀ pmax ∈ pmax?, dmin ≤ pmax)

/-- `leqOpt` is the Boolean form of the open-ended bound comparison. -/
theorem leqOpt_eq_true_iff (a b : Option ℚ) :
    leqOpt a b = true ↔ ∀ x ∈ a, ∀ y ∈ b, x ≤ y := by
  cases a <;> cases b <;> simp [leqOpt]

/-- `rangesOverlap` is the salary scorer's overlap test. -/
theorem rangesOverlap_iff (dmin? dmax? pmin? pmax? : Option ℚ) :
    rangesOverlap dmin? dmax? pmin? pmax?
      ↔ (leqOpt pmin? dmax? && leqOpt dmin? pmax?) = true := by
  rw [Bool.and_eq_true, leqOpt_eq_true_iff, leqOpt_eq_true_iff]
  exact Iff.rfl

/-- A pair with a present member is not the all-absent pair. -/
theorem not_both_isNone {a b : Option ℚ} (h : a.isSome ∨ b.isSome) :
    ¬(a.isNone && b.isNone) = true := by
  cases a <;> cases b <;> simp_all

/-- The linear-decay form of the salary score on disjoint usable ranges
(open-ended bounds included). -/
theorem salaryScore_disjoint (dmin? dmax? pmin? pmax? : Option ℚ)
    (hdecl : dmin?.isSome ∨ dmax?.isSome)
    (husable : pmin?.isSome ∨ pmax?.isSome)
    (hno : ¬rangesOverlap dmin? dmax? pmin? pmax?)
    (hmid : ¬(desiredMidpoint dmin? dmax? ≤ 0)) :
    salaryScore dmin? dmax? pmin? pmax?
      = max 0 (1 - salaryGap dmin? dmax? pmin? pmax?
          / (desiredMidpoint dmin? dmax? / 2)) := by
  have hcond : ¬((leqOpt pmin? dmax? && leqOpt dmin? pmax?) = true) :=
    fun h => hno ((rangesOverlap_iff dmin? dmax? pmin? pmax?).mpr h)
  simp only [salaryScore]
  rw [if_neg (not_both_isNone hdecl), if_neg (not_both_isNone husable),
    if_neg hcond, if_neg hmid]

/-- C5: for a declared desired range of positive midpoint and any usable
posting range (open-ended bounds allowed on either side): an overlapping
posting range scores exactly 1; a disjoint posting range scores 0 once the
gap reaches 50% of the desired midpoint; and among disjoint posting ranges
the score is non-increasing in the gap. -/
theorem c5_salary_score (dmin? dmax? : Option ℚ)
    (hdecl : dmin?.isSome ∨ dmax?.isSome)
    (hmid : 0 < desiredMidpoint dmin? dmax?) :
    (∀ pmin? pmax? : Option ℚ, pmin?.isSome ∨ pmax?.isSome →
        rangesOverlap dmin? dmax? pmin? pmax? →
        salaryScore dmin? dmax? pmin? pmax? = 1)
  ∧ (∀ pmin? pmax? : Option ℚ, pmin?.isSome ∨ pmax?.isSome →
      ¬rangesOverlap dmin? dmax? pmin? pmax? →
      desiredMidpoint dmin? dmax? / 2 ≤ salaryGap dmin? dmax? pmin? pmax? →
      salaryScore dmin? dmax? pmin? pmax? = 0)
  ∧ (∀ p1n p1x p2n p2x : Option ℚ,
      p1n.isSome ∨ p1x.isSome → p2n.isSome ∨ p2x.isSome →
      ¬rangesOverlap dmin? dmax? p1n p1x →
      ¬rangesOverlap dmin? dmax? p2n p2x →
      salaryGap dmin? dmax? p1n p1x ≤ salaryGap dmin? dmax? p2n p2x →
      salaryScore dmin? dmax? p2n p2x ≤ salaryScore dmin? dmax? p1n p1x) := by
  have hmidpos : 0 < desiredMidpoint dmin? dmax? / 2 := by linarith
  have hmid' : ¬(desiredMidpoint dmin? dmax? ≤ 0) := not_le.mpr hmid
  refine ⟨?_, ?_, ?_⟩
  · intro pmin? pmax? husable hov
    have hcond : (leqOpt pmin? dmax? && leqOpt dmin? pmax?) = true :=
      (rangesOverlap_iff dmin? dmax? pmin? pmax?).mp hov
    simp only [salaryScore]
    rw [if_neg (not_both_isNone hdecl), if_neg (not_both_isNone husable),
      if_pos hcond]
  · intro pmin? pmax? husable hno hgap
    rw [salaryScore_disjoint dmin? dmax? pmin? pmax? hdecl husable hno hmid']
    have hge1 : (1 : ℚ)
        ≤ salaryGap dmin? dmax? pmin? pmax?
            / (desiredMidpoint dmin? dmax? / 2) :=
      (one_le_div hmidpos).mpr hgap
    have : (1 : ℚ) - salaryGap dmin? dmax? pmin? pmax?
        / (desiredMidpoint dmin? dmax? / 2) ≤ 0 := by linarith
    exact max_eq_left this
  · intro p1n p1x p2n p2x hus1 hus2 hno1 hno2 hgaple
    rw [salaryScore_disjoint dmin? dmax? p1n p1x hdecl hus1 hno1 hmid',
      salaryScore_disjoint dmin? dmax? p2n p2x hdecl hus2 hno2 hmid']
    apply max_le_max le_rfl
    have hdivle :
        salaryGap dmin? dmax? p1n p1x / (desiredMidpoint dmin? dmax? / 2)
          ≤ salaryGap dmin? dmax? p2n p2x / (desiredMidpoint dmin? dmax? / 2) :=
      (div_le_div_iff_of_pos_right hmidpos).mpr hgaple
    linarith

/-- Witness for C5: the spec's open-ended scenario — desired [80000, ∞)
overlaps posting [90000, ∞) and scores 1 — together with a fully bounded
overlap instance. -/
theorem c5_salary_score_witness :
    salaryScore (some 80000) none (some 90000) none = 1
      ∧ salaryScore (some 80000) (some 100000) (some 90000) (some 120000)
          = 1 := by
  constructor
  · exact (c5_salary_score (some 80000) none (Or.inl rfl)
      (by norm_num [desiredMidpoint])).1 (some 90000) none (Or.inl rfl)
      (by constructor <;> simp)
  · exact (c5_salary_score (some 80000) (some 100000) (Or.inl rfl)
      (by norm_num [desiredMidpoint])).1 (some 90000) (some 120000)
      (Or.inl rfl)
      (by refine ⟨?_, ?_⟩ <;> intro x hx y hy <;>
        simp only [Option.mem_def, Option.some.injEq] at hx hy <;>
        subst hx <;> subst hy <;> norm_num)

/-- The optional-date order is total. -/
theorem dateLE_total (x y : Option ℤ) :
    dateLE x y = true ∨ dateLE y x = true := by
  cases x <;> cases y <;> simp [dateLE]
  all_goals omega

/-- The optional-date order is transitive. -/
theorem dateLE_trans {x y z : Option ℤ} (h1 : dateLE x y = true)
    (h2 : dateLE y z = true) : dateLE x z = true := by
  cases x <;> cases y <;> cases z <;> simp [dateLE] at *
  all_goals omega

/-- The optional-date order is antisymmetric. -/
theorem dateLE_antisymm {x y : Option ℤ} (h1 : dateLE x y = true)
    (h2 : dateLE y x = true) : x = y := by
  cases x <;> cases y <;> simp [dateLE] at *
  all_goals omega

/-- The ranker ordering is transitive. -/
theorem rankLE_trans (a b c : MatchResult) (h1 : rankLE a b = true)
    (h2 : rankLE b c = true) : rankLE a c = true := by
  unfold rankLE at *
  by_cases hab : a.compositeScore = b.compositeScore <;>
    by_cases hbc : b.compositeScore = c.compositeScore
  · have hac : a.compositeScore = c.compositeScore := hab.trans hbc
    rw [if_pos hab] at h1
    rw [if_pos hbc] at h2
    rw [if_pos hac]
    by_cases had : a.datePosted = b.datePosted <;>
      by_cases hbd : b.datePosted = c.datePosted
    · have hacd : a.datePosted = c.datePosted := had.trans hbd
      rw [if_pos had] at h1
      rw [if_pos hbd] at h2
      rw [if_pos hacd]
      simp only [decide_eq_true_eq] at *
      omega
    · have hacd : ¬a.datePosted = c.datePosted := fun h => hbd (had ▸ h)
      rw [if_pos had] at h1
      rw [if_neg hbd] at h2
      rw [if_neg hacd, had]
      exact h2
    · have hacd : ¬a.datePosted = c.datePosted := fun h => had (h.trans hbd.symm)
      rw [if_neg had] at h1
      rw [if_pos hbd] at h2
      rw [if_neg hacd, ← hbd]
      exact h1
    · rw [if_neg had] at h1
      rw [if_neg hbd] at h2
      have hacd : ¬a.datePosted = c.datePosted := by
        intro heq
        apply had
        rw [← heq] at h2
        exact (dateLE_antisymm h1 h2).symm
      rw [if_neg hacd]
      exact dateLE_trans h2 h1
  · rw [if_pos hab] at h1
    rw [if_neg hbc] at h2
    simp only [decide_eq_true_eq] at h2
    have hac : ¬a.compositeScore = c.compositeScore := by
      intro heq
      exact hbc (by linarith [le_of_eq hab, le_of_eq heq])
    rw [if_neg hac]
    simp only [decide_eq_true_eq]
    linarith [le_of_eq hab.symm]
  · rw [if_neg hab] at h1
    rw [if_pos hbc] at h2
    simp only [decide_eq_true_eq] at h1
    have hac : ¬a.compositeScore = c.compositeScore := by
      intro heq
      exact hab (by linarith [le_of_eq hbc, le_of_eq heq])
    rw [if_neg hac]
    simp only [decide_eq_true_eq]
    linarith [le_of_eq hbc]
  · rw [if_neg hab] at h1
    rw [if_neg hbc] at h2
    simp only [decide_eq_true_eq] at h1 h2
    have hac : ¬a.compositeScore = c.compositeScore := by
      intro heq
      exact hbc (le_antisymm (heq ▸ h1) h2)
    rw [if_neg hac]
    simp only [decide_eq_true_eq]
    linarith

/-- The ranker ordering is total. -/
theorem rankLE_total (a b : MatchResult) :
    rankLE a b = true ∨ rankLE b a = true := by
  unfold rankLE
  by_cases hab : a.compositeScore = b.compositeScore
  · rw [if_pos hab, if_pos hab.symm]
    by_cases had : a.datePosted = b.datePosted
    · rw [if_pos had, if_pos had.symm]
      simp only [decide_eq_true_eq]
      omega
    · rw [if_neg had, if_neg (fun h => had h.symm)]
      exact (dateLE_total b.datePosted a.datePosted).imp id id
  · rw [if_neg hab, if_neg (fun h => hab h.symm)]
    simp only [decide_eq_true_eq]
    exact le_total b.compositeScore a.compositeScore

/-- C6: the output of `engineMatch` is sorted by the ranker ordering, which
is a total ordering: composite score descending, then `datePosted`
descending (with a missing date oldest), then `id` ascending. -/
theorem c6_output_ordering (profile : CandidateProfile) (ps : List Posting) :
    List.Pairwise (fun a b => rankLE a b = true) (engineMatch profile ps)
  ∧ (∀ a b : MatchResult, rankLE a b = true ∨ rankLE b a = true)
  ∧ (∀ a b : MatchResult, a.compositeScore ≠ b.compositeScore →
      (rankLE a b = true ↔ b.compositeScore ≤ a.compositeScore))
  ∧ (∀ a b : MatchResult, a.compositeScore = b.compositeScore →
      a.datePosted ≠ b.datePosted →
      (rankLE a b = true ↔ dateLE b.datePosted a.datePosted = true))
  ∧ (∀ a b : MatchResult, a.compositeScore = b.compositeScore →
      a.datePosted = b.datePosted →
      (rankLE a b = true ↔ a.jobId ≤ b.jobId)) := by
  refine ⟨?_, rankLE_total, ?_, ?_, ?_⟩
  · have h := @List.sorted_mergeSort MatchResult rankLE rankLE_trans
      (fun a b => Bool.or_eq_true .. |>.mpr (rankLE_total a b))
      (ps.map (scorePosting profile))
    exact h
  · intro a b hne
    rw [rankLE, if_neg hne]
    simp only [decide_eq_true_eq]
  · intro a b heq hne
    rw [rankLE, if_pos heq, if_neg hne]
  · intro a b heq hd
    rw [rankLE, if_pos heq, if_pos hd]
    simp only [decide_eq_true_eq]

/-- C8: `engineMatch` returns exactly one MatchResult for every input
posting — the output job ids are a permutation of the input ids, the length
is preserved, every posting's result appears in the output, and a posting
whose salary could not be normalized gets salary score 0 (when the profile
declares a usable desired salary) instead of being dropped. -/
theorem c8_one_result_per_posting (profile : CandidateProfile)
    (ps : List Posting) :
    List.Perm ((engineMatch profile ps).map (fun r => r.jobId))
        (ps.map (fun p => p.id))
  ∧ (engineMatch profile ps).length = ps.length
  ∧ (∀ p ∈ ps, scorePosting profile p ∈ engineMatch profile ps)
  ∧ (∀ p ∈ ps,
      ((profile.desiredSalaryMin.bind
          (fun a => annualize a profile.desiredSalaryPeriod)).isSome
        ∨ (profile.desiredSalaryMax.bind
          (fun a => annualize a profile.desiredSalaryPeriod)).isSome) →
      (postingAnnualized p).1 = none → (postingAnnualized p).2 = none →
      (scorePosting profile p).salaryScore = 0) := by
  have hperm := List.mergeSort_perm (ps.map (scorePosting profile)) rankLE
  refine ⟨?_, ?_, ?_, ?_⟩
  · have h2 : (ps.map (scorePosting profile)).map (fun r => r.jobId)
        = ps.map (fun p => p.id) := by
      rw [List.map_map]
      rfl
    show List.Perm
      (((ps.map (scorePosting profile)).mergeSort rankLE).map (fun r => r.jobId))
      (ps.map (fun p => p.id))
    rw [← h2]
    exact hperm.map (fun r => r.jobId)
  · rw [engineMatch, hperm.length_eq, List.length_map]
  · intro p hp
    rw [engineMatch, hperm.mem_iff]
    exact List.mem_map_of_mem (scorePosting profile) hp
  · intro p hp hdecl h1 h2
    show salaryScore _ _ _ _ = 0
    have hnd : ¬((profile.desiredSalaryMin.bind
          (fun a => annualize a profile.desiredSalaryPeriod)).isNone
        && (profile.desiredSalaryMax.bind
          (fun a => annualize a profile.desiredSalaryPeriod)).isNone)
        = true := by
      simp only [Bool.and_eq_true, Option.isNone_iff_eq_none]
      rintro ⟨ha, hb⟩
      rcases hdecl with h | h
      · rw [ha] at h
        simp at h
      · rw [hb] at h
        simp at h
    simp only [salaryScore]
    rw [if_neg hnd,
      if_pos (show ((postingAnnualized p).1.isNone
          && (postingAnnualized p).2.isNone) = true by simp [h1, h2])]

/-- Concrete profile from the spec's §8 scenario, used by witnesses. -/
def sampleProfile : CandidateProfile where
  desiredSalaryMin := some 80000
  desiredSalaryMax := none
  desiredSalaryPeriod := some Period.yearly
  seniority := none
  desiredJobTypes := []
  desiredJobTitles := []
  desiredSkills := ["Python".toList]
  educationLevel := none

/-- Concrete posting from the spec's §8 scenario, used by witnesses. -/
def samplePostingA : Posting where
  id := 1
  url := "https://example.com/a".toList
  title := none
  employer := none
  location := none
  jobType := none
  seniority := none
  educationLevel := none
  description := none
  skills := some ("Python, SQL".toList)
  primarySalaryMin := some 90000
  primarySalaryMax := none
  primarySalaryRate := some Period.yearly
  secondarySalaryMin := none
  secondarySalaryMax := none
  secondarySalaryRate := none
  datePosted := some 100

/-- Witness for C6 on the concrete scenario data. -/
theorem c6_output_ordering_witness :
    List.Pairwise (fun a b => rankLE a b = true)
        (engineMatch sampleProfile [samplePostingA])
      ∧ rankLE (scorePosting sampleProfile samplePostingA)
          (scorePosting sampleProfile samplePostingA) = true := by
  have h := c6_output_ordering sampleProfile [samplePostingA]
  exact ⟨h.1, (h.2.2.2.2 (scorePosting sampleProfile samplePostingA)
    (scorePosting sampleProfile samplePostingA) rfl rfl).mpr le_rfl⟩

/-- Witness for C8 on the concrete scenario data. -/
theorem c8_one_result_per_posting_witness :
    List.Perm
        ((engineMatch sampleProfile [samplePostingA]).map (fun r => r.jobId))
        ([samplePostingA].map (fun p => p.id))
      ∧ scorePosting sampleProfile samplePostingA
          ∈ engineMatch sampleProfile [samplePostingA] := by
  have h := c8_one_result_per_posting sampleProfile [samplePostingA]
  exact ⟨h.1, h.2.2.1 samplePostingA (by simp)⟩

end JobFinder
